import Mathlib

/-!
Verification of the nom-cheatsheet documentation compiler.

The Rust sources are shallowly embedded: Rust strings and string slices become
`List Char` (`Str` below); the nom parser combinators used by `build.rs` become
explicit `Option`-returning functions on `Str` (a parser either fails, `none`,
or returns its parse result together with the remaining input); Rust panics and
`unwrap` failures become `Except.error ()`; Rust raw pointers of string/byte
slices become natural-number addresses, so a slice is a `Span` of a start
address and a length (`checked_add` on pointers cannot overflow in `Nat`, which
is noted wherever it matters).  All definitions are executable.
-/

namespace NomCheatsheet

/-- Strings are modelled as lists of characters.  The sources only ever index
and slice at ASCII boundaries, so byte positions and character positions agree
on every string the embedded functions are applied to. -/
abbrev Str := List Char

/-- The back-quote character, U+0060. -/
def bq : Char := Char.ofNat 96

/-- Line feed. -/
def nlc : Char := Char.ofNat 10

/-- Carriage return. -/
def crc : Char := Char.ofNat 13

/-- Space. -/
def spc : Char := ' '

/-- Converts a Lean string literal into the character-list model. -/
def lit (s : String) : Str := s.toList

/-- Model of nom `tag(pat)`: consumes the exact pattern or fails. -/
def tag (pat s : Str) : Option Str :=
  if pat.isPrefixOf s then some (s.drop pat.length) else none

/-- Model of nom `take_until(pat)` (complete): splits `s` into the longest
prefix not containing `pat` and the remainder starting with `pat`; fails when
`pat` does not occur. -/
def splitUntil (pat : Str) : Str → Option (Str × Str)
  | [] => if pat.isPrefixOf ([] : Str) then some ([], []) else none
  | c :: rest =>
    if pat.isPrefixOf (c :: rest) then some ([], c :: rest)
    else
      match splitUntil pat rest with
      | some (a, b) => some (c :: a, b)
      | none => none

/-- Model of nom `line_ending` (complete): consumes `"\n"` or `"\r\n"`. -/
def line_ending (s : Str) : Option (Str × Str) :=
  match s with
  | [] => none
  | c :: rest =>
    if c = nlc then some ([nlc], rest)
    else
      if c = crc then
        match rest with
        | [] => none
        | c2 :: rest2 => if c2 = nlc then some ([crc, nlc], rest2) else none
      else none

/-- Character predicate used by `not_line_ending`: not CR and not LF. -/
def notCRLF (c : Char) : Bool := !(c = crc) && !(c = nlc)

/-- Model of nom `not_line_ending` (complete): returns the longest prefix free
of CR/LF; fails when the input continues with a CR that is not followed by an
LF. -/
def not_line_ending (s : Str) : Option (Str × Str) :=
  let t := s.takeWhile notCRLF
  let r := s.dropWhile notCRLF
  match r with
  | [] => some (t, [])
  | c :: rest =>
    if c = crc then
      match rest with
      | [] => none
      | c2 :: _ => if c2 = nlc then some (t, r) else none
    else some (t, r)

/-- The back-quote run counting loop of `markdown_format_code`
(src/nom-cheatsheet-shared/src/lib.rs lines 4-14): `maxv` is the running
maximum, `count` the length of the current trailing run. -/
def maxRunAux : Str → ℕ → ℕ → ℕ
  | [], maxv, _ => maxv
  | c :: rest, maxv, count =>
    if c = bq then maxRunAux rest (Nat.max maxv (count + 1)) (count + 1)
    else maxRunAux rest maxv 0

/-- Length of the longest back-quote run, as computed by the source loop. -/
def maxRun (s : Str) : ℕ := maxRunAux s 0 0

/-- Model of `markdown_format_code` (src/nom-cheatsheet-shared/src/lib.rs
lines 1-32): wrap in one more back-quote than the longest run, padding with one
space on both ends when the input starts or ends with a back-quote or both
starts and ends with a space. -/
def markdown_format_code (s : Str) : Str :=
  let backticks := List.replicate (maxRun s + 1) bq
  let spacing : Str :=
    if (s.head? = some bq ∨ s.getLast? = some bq) ∨
        (s.head? = some spc ∧ s.getLast? = some spc) then [spc] else []
  backticks ++ spacing ++ s ++ spacing ++ backticks

/-- A Rust slice, modelled as its start address (`ptr`) and length.  Both
slices compared by `subslice_offset_bytes` live inside the same address space,
so pointer comparison is comparison of these naturals; `checked_add` never
overflows on `Nat`. -/
structure Span where
  ptr : ℕ
  len : ℕ
deriving DecidableEq

/-- Model of `impl SubsliceOffset for str` (src/src/main.rs lines 37-53).  The
first test also rejects `sub.ptr = self_end`, so an empty subslice sitting at
the very end of `self` yields `none`. -/
def str_subslice_offset_bytes (self sub : Span) : Option ℕ :=
  let self_end := self.ptr + self.len
  let sub_end := sub.ptr + sub.len
  if sub.ptr < self.ptr ∨ sub.ptr = self_end ∨ sub_end > self_end then none
  else
    if sub.ptr < self.ptr ∨ sub.ptr > self.ptr + self.len then none
    else some (sub.ptr - self.ptr)

/-- Model of `impl SubsliceOffset for [u8]` (src/src/main.rs lines 61-74):
no `sub.ptr = self_end` test, so the empty subslice at the end is accepted. -/
def u8_subslice_offset_bytes (self sub : Span) : Option ℕ :=
  let self_end := self.ptr + self.len
  let sub_end := sub.ptr + sub.len
  if sub.ptr < self.ptr ∨ sub_end > self_end then none
  else some (sub.ptr - self.ptr)

/-- Model of `nom::Needed`. -/
inductive NomNeeded where
  | size (n : ℕ)
  | unknown

/-- Execution outcome fed to `format_iresult`.  The `Debug` renderings of the
produced value and of the remainder are carried as already-formatted text
(`valueDebug`, `remainderDebug`), since `Debug` formatting of arbitrary Rust
values is outside the core; the remainder's span decides emptiness. -/
inductive IResultM where
  | ok (remainder : Span) (valueDebug : Str) (remainderDebug : Str)
  | incomplete (needed : NomNeeded)
  | error (location : Span) (code : Str)
  | failure (location : Span) (code : Str)

/-- Model of `str::replace`: replaces every occurrence of `pat` (leftmost,
non-overlapping) by `repl`. -/
def replaceAll (pat repl : Str) (s : Str) : Str :=
  if hp : pat = [] then s
  else
    match s with
    | [] => []
    | c :: rest =>
      if pat.isPrefixOf (c :: rest) then
        repl ++ replaceAll pat repl ((c :: rest).drop pat.length)
      else c :: replaceAll pat repl rest
termination_by s.length
decreasing_by
  · simp only [List.drop, List.length_drop, List.length_cons]
    have : 1 ≤ pat.length := by
      cases pat with
      | nil => exact absurd rfl hp
      | cons a l => simp
    omega
  · simp

/-- Model of `format_remainder` (src/src/main.rs lines 122-132), applied to the
`{remainder:#04x?}` debug text of the remainder. -/
def format_remainder (remainderDebug : Str) : Str :=
  replaceAll (lit "[") (lit "&[")
    (replaceAll (lit ",") (lit ", ")
      (replaceAll (lit ",]") (lit "]")
        (replaceAll [spc] []
          (replaceAll [nlc] [] (markdown_format_code remainderDebug)))))

/-- Model of `format_iresult` (src/src/main.rs lines 134-172).  The function is
generic over the input type through its `SubsliceOffset` impl, modelled by the
`subslice` parameter (`str_subslice_offset_bytes` for `&str` inputs,
`u8_subslice_offset_bytes` for `&[u8]` inputs).  `Except.error ()` models the
panic of `.unwrap()` on a location that is not a subslice of `input`, which
aborts the build. -/
def format_iresult (subslice : Span → Span → Option ℕ) (input : Span)
    (result : IResultM) : Except Unit Str :=
  match result with
  | .ok remainder valueDebug remainderDebug =>
    let value := markdown_format_code valueDebug
    if remainder.len = 0 then
      .ok (lit "Result: " ++ value ++ lit "<br>No remainder")
    else
      .ok (lit "Result: " ++ value ++ lit "<br>Remainder: " ++
        format_remainder remainderDebug)
  | .incomplete (.size n) =>
    .ok (lit "Incomplete<br>Needed: " ++ lit (toString n) ++ lit " items")
  | .incomplete .unknown => .ok (lit "Incomplete<br>Needed: unknown")
  | .error location code =>
    match subslice input location with
    | none => .error ()
    | some offset =>
      .ok (lit "Error<br>Byte offset: " ++ lit (toString offset) ++
        lit "<br>Code: " ++ code)
  | .failure location code =>
    match subslice input location with
    | none => .error ()
    | some offset =>
      .ok (lit "Failure<br>Byte offset: " ++ lit (toString offset) ++
        lit "<br>Code: " ++ code)

/-- Model of `parse_code_span` (src/build.rs lines 116-128): one or more
back-quotes via `is_a`, content up to the next run of equally many back-quotes,
the closing run, then the conditional stripping of one leading and one trailing
space.  `code.len() >= 2` is a byte length in the source, but both ends being
ASCII spaces makes byte and character length interchangeable here. -/
def parse_code_span (s : Str) : Option (Str × Str) :=
  let backticks := s.takeWhile (fun c => c = bq)
  if backticks = [] then none
  else
    let s1 := s.dropWhile (fun c => c = bq)
    match splitUntil backticks s1 with
    | none => none
    | some (code, s2) =>
      match tag backticks s2 with
      | none => none
      | some s3 =>
        let code :=
          if 2 ≤ code.length ∧ code.head? = some spc ∧ code.getLast? = some spc
          then (code.drop 1).dropLast
          else code
        some (code, s3)

/-- A run of `n` back-quotes occurs at position `i` of `l`. -/
def occursAt (l : Str) (i n : ℕ) : Prop := List.replicate n bq <+: l.drop i

instance (l : Str) (i n : ℕ) : Decidable (occursAt l i n) := by
  unfold occursAt
  infer_instance

/-! ### The template segmenter model (build.rs lines 41-114) -/

/-- build.rs `CodeBlock`. -/
structure CodeBlock where
  language : Str
  code : Str
deriving DecidableEq

/-- build.rs `Component`. -/
inductive Component where
  | text (t : Str)
  | codeBlock (cb : CodeBlock)
deriving DecidableEq

/-- The code fence marker. -/
def fence : Str := [bq, bq, bq]

/-- Model of `parse_outside_code_blocks` (build.rs lines 53-62): text up to
the next fence (or, when no fence follows, all remaining input), failing on
empty text. -/
def parse_outside_code_blocks (s : Str) : Option (Component × Str) :=
  match splitUntil fence s with
  | some (t, r) => if t = [] then none else some (.text t, r)
  | none => if s = [] then none else some (.text s, [])

/-- Model of `parse_code_block` (build.rs lines 64-70): opening fence,
language tag up to the end of the line, the line ending, code up to the next
fence, closing fence. -/
def parse_code_block (s : Str) : Option (Component × Str) :=
  match tag fence s with
  | none => none
  | some s1 =>
    match not_line_ending s1 with
    | none => none
    | some (language, s2) =>
      match line_ending s2 with
      | none => none
      | some (_, s3) =>
        match splitUntil fence s3 with
        | none => none
        | some (code, s4) =>
          match tag fence s4 with
          | none => none
          | some s5 => some (.codeBlock ⟨language, code⟩, s5)

/-- The `many1(alt((parse_code_block, parse_outside_code_blocks)))` loop of
build.rs line 74, written with explicit fuel: every successful step consumes
at least one character, so the fuel `s.length + 1` used by `do_components`
never runs out before the loop's natural end. -/
def do_components_fuel : ℕ → Str → List Component × Str
  | 0, s => ([], s)
  | fuel + 1, s =>
    match parse_code_block s with
    | some (c, rest) =>
      let r := do_components_fuel fuel rest
      (c :: r.1, r.2)
    | none =>
      match parse_outside_code_blocks s with
      | some (c, rest) =>
        let r := do_components_fuel fuel rest
        (c :: r.1, r.2)
      | none => ([], s)

/-- The component sequence and the leftover input of the segmenting pass. -/
def do_components (s : Str) : List Component × Str :=
  do_components_fuel (s.length + 1) s

/-- build.rs lines 80-83: an `ignore` tag is rewritten to `rust` (such a block
is then not registered for execution; the persisting of rust/rs blocks to
example files is an external file-system effect outside the model). -/
def rewrite_ignore (c : Component) : Component :=
  match c with
  | .codeBlock cb =>
    if cb.language = lit "ignore" then .codeBlock ⟨lit "rust", cb.code⟩ else c
  | .text _ => c

/-- build.rs lines 104-112: re-emission of one component. -/
def emit_component : Component → Str
  | .text t => t
  | .codeBlock cb => fence ++ cb.language ++ [nlc] ++ cb.code ++ [nlc] ++ fence

/-- Model of `do_code_blocks` (build.rs lines 72-114): segment, fail when no
component can be produced (`many1` failure makes `.unwrap()` panic) or when
input remains (`assert_eq!` failure), rewrite `ignore` tags and re-emit. -/
def do_code_blocks (s : Str) : Except Unit Str :=
  let r := do_components s
  if r.1 = [] then .error ()
  else if r.2 ≠ [] then .error ()
  else .ok (((r.1.map rewrite_ignore).map emit_component).flatten)

/-- The raw source span a component was parsed from. -/
def RawOf : Component → Str → Prop
  | .text t, raw => raw = t
  | .codeBlock cb, raw =>
    ∃ le, (le = [nlc] ∨ le = [crc, nlc]) ∧
      raw = fence ++ cb.language ++ le ++ cb.code ++ fence

/-- How the re-emission of a (rewritten) component relates to its raw source
span: text is verbatim; a code block keeps its code but is emitted with an LF
after the (possibly rewritten) tag and one extra LF inserted before the
closing fence. -/
def EmitFidelity (c : Component) (raw : Str) : Prop :=
  match c with
  | .text _ => emit_component (rewrite_ignore c) = raw
  | .codeBlock cb =>
    ∃ le, (le = [nlc] ∨ le = [crc, nlc]) ∧
      raw = fence ++ cb.language ++ le ++ cb.code ++ fence ∧
      emit_component (rewrite_ignore c) =
        fence ++ (if cb.language = lit "ignore" then lit "rust" else cb.language) ++
          [nlc] ++ cb.code ++ [nlc] ++ fence

/-! ### The table-processing model of build.rs `main` -/

/-- A resolved reference (build.rs `Url`). -/
structure Url where
  module : Str
  name : Str
  docsurl : Str
deriving DecidableEq

/-- A generated `use nom::{module}::{name};` item (build.rs lines 288-296);
two items are equal exactly when module path and name agree, matching
`syn::Item` equality on these fixed-shape items. -/
structure UseStmt where
  module : Str
  name : Str
deriving DecidableEq

/-- A parsed table row (build.rs `Combinator`).  `localImports` stands for the
`syn::File` items obtained by parsing the row's leading `use ...;` imports
text (build.rs line 277). -/
structure Combinator where
  urls : List Url
  localImports : List UseStmt
  usage : Option Str
  input : Option Str
  description : Str
deriving DecidableEq

/-- build.rs line 285: modules that end with `streaming` or start with `bits`
are excluded from import generation. -/
def excludedModule (m : Str) : Bool :=
  (lit "streaming").isSuffixOf m || (lit "bits").isPrefixOf m

/-- The use item generated for a resolved reference (build.rs lines 288-296). -/
def mkUse (u : Url) : UseStmt := ⟨u.module, u.name⟩

/-- One rendered reference (build.rs lines 316-325):
`{module}::[{name}]({docsurl})`. -/
def urlstring (u : Url) : Str :=
  u.module ++ lit "::[" ++ u.name ++ lit "](" ++ u.docsurl ++ lit ")"

/-- `Vec::join` with separator `<br>`. -/
def joinBr : List Str → Str
  | [] => []
  | [x] => x
  | x :: y :: rest => x ++ lit "<br>" ++ joinBr (y :: rest)

/-- The rendered reference column of a row (build.rs lines 316-327): built
from the row's own `combinator.urls`. -/
def urlstrings (urls : List Url) : Str := joinBr (urls.map urlstring)

/-- The build-time shape of one emitted row (the statement pushed for the row,
build.rs lines 330-341 and 345-406): `staticRow` rows have empty
usage/input/output cells; `dynamicRow` rows carry the formatted usage and
input cells and the generated block's import items. -/
inductive RowLine where
  | staticRow (urlcol : Str) (description : Str)
  | dynamicRow (urlcol : Str) (usageCell : Str) (inputCell : Str)
      (description : Str) (blockUses : List UseStmt)
deriving DecidableEq

/-- The rendered reference column of an emitted row. -/
def rowUrlcol : RowLine → Str
  | .staticRow u _ => u
  | .dynamicRow u _ _ _ _ => u

/-- The import items of a dynamic row's generated block. -/
def rowBlockUses : RowLine → Option (List UseStmt)
  | .staticRow _ _ => none
  | .dynamicRow _ _ _ _ bu => some bu

/-- build.rs lines 272-276: a row with an empty reference list inherits the
previous row's resolved references. -/
def effUrls (lastUrls : List Url) (c : Combinator) : List Url :=
  if c.urls = [] then lastUrls else c.urls

/-- The use items generated from a row's effective references (build.rs
lines 278-297), excluded modules filtered out. -/
def rowUses (lastUrls : List Url) (c : Combinator) : List UseStmt :=
  ((effUrls lastUrls c).filter (fun u => !excludedModule u.module)).map mkUse

/-- The `(symbol, use item)` recordings a row pushes into the global ledger
(build.rs lines 298-313), in reference order. -/
def rowRecordings (lastUrls : List Url) (c : Combinator) : List (Str × UseStmt) :=
  ((effUrls lastUrls c).filter (fun u => !excludedModule u.module)).map
    (fun u => (u.name, mkUse u))

/-- Processing of one table row (the body of the inner loop of build.rs
`main`, lines 268-408): produces the emitted row, the ledger recordings, and
the next value of `last_urls`; a row with exactly one of usage/input present
panics (build.rs lines 342-344), modelled as `Except.error ()`. -/
def processRow (lastUrls : List Url) (c : Combinator) :
    Except Unit (RowLine × List (Str × UseStmt) × List Url) :=
  let urls := effUrls lastUrls c
  match c.input, c.usage with
  | none, none =>
    .ok (.staticRow (urlstrings c.urls) c.description, rowRecordings lastUrls c, urls)
  | some inp, some usg =>
    .ok (.dynamicRow (urlstrings c.urls) (markdown_format_code usg)
        (markdown_format_code inp) c.description
        (c.localImports ++ rowUses lastUrls c),
      rowRecordings lastUrls c, urls)
  | some _, none => .error ()
  | none, some _ => .error ()

/-- Processing of the rows of one table in order, threading `last_urls` and
concatenating the ledger recordings. -/
def processRows (lastUrls : List Url) :
    List Combinator → Except Unit (List RowLine × List (Str × UseStmt) × List Url)
  | [] => .ok ([], [], lastUrls)
  | c :: cs =>
    match processRow lastUrls c with
    | .error e => .error e
    | .ok (line, recs, next) =>
      match processRows next cs with
      | .error e => .error e
      | .ok (lines, recsRest, final) => .ok (line :: lines, recs ++ recsRest, final)

/-- One processed table: its verbatim preamble and its emitted rows. -/
structure TableOut where
  preamble : Str
  lines : List RowLine
deriving DecidableEq

/-- Processing of all tables in order (outer loop of build.rs `main`,
lines 255-410). -/
def processTables (lastUrls : List Url) :
    List (Str × List Combinator) →
      Except Unit (List TableOut × List (Str × UseStmt) × List Url)
  | [] => .ok ([], [], lastUrls)
  | t :: ts =>
    match processRows lastUrls t.2 with
    | .error e => .error e
    | .ok (lines, recs, next) =>
      match processTables next ts with
      | .error e => .error e
      | .ok (touts, recsRest, final) =>
        .ok (⟨t.1, lines⟩ :: touts, recs ++ recsRest, final)

/-- Boolean membership of a symbol in the conflict set (models
`HashSet<String>` membership). -/
def memStr (x : Str) : List Str → Bool
  | [] => false
  | y :: rest => x = y || memStr x rest

/-- Lookup in the `uses` map (models keyed `HashMap<String, Item>` lookup). -/
def alLookup (k : Str) : List (Str × UseStmt) → Option UseStmt
  | [] => none
  | (k2, v) :: rest => if k2 = k then some v else alLookup k rest

/-- Keyed insert; an existing value under the key is replaced in place
(models the value replacement of `HashMap::insert`). -/
def alInsert (k : Str) (v : UseStmt) :
    List (Str × UseStmt) → List (Str × UseStmt)
  | [] => [(k, v)]
  | (k2, v2) :: rest =>
    if k2 = k then (k, v) :: rest else (k2, v2) :: alInsert k v rest

/-- The global import ledger: the `uses` map plus the `uses_conflicts` set. -/
structure Ledger where
  uses : List (Str × UseStmt)
  conflicts : List Str
deriving DecidableEq

/-- build.rs lines 308-313: insert the new item under the symbol; when an old
item existed and differs from the new one, the symbol joins the conflict
set. -/
def record (st : Ledger) (r : Str × UseStmt) : Ledger :=
  let old := alLookup r.1 st.uses
  let uses := alInsert r.1 r.2 st.uses
  match old with
  | some o => if o ≠ r.2 then ⟨uses, r.1 :: st.conflicts⟩ else ⟨uses, st.conflicts⟩
  | none => ⟨uses, st.conflicts⟩

/-- The token text of a generated use item, the sort key of build.rs line 421
(`to_token_stream().to_string()`; token spacing approximated — this fixes the
concrete order but not its determinism). -/
def useText (u : UseStmt) : Str :=
  lit "# [allow (unused_imports)] use nom :: " ++ u.module ++ lit " :: " ++
    u.name ++ lit " ;"

/-- build.rs lines 417-421: remove conflicted symbols, collect the remaining
items and sort them by token text. -/
def finalize (st : Ledger) : List UseStmt :=
  ((st.uses.filter (fun p => !memStr p.1 st.conflicts)).map
    (fun p => p.2)).insertionSort (fun a b => useText a ≤ useText b)

/-- The assembled build output: per-table preambles and rows, the trailing
remainder, and the finalized global import list. -/
structure Document where
  tables : List TableOut
  remainder : Str
  globalUses : List UseStmt
deriving DecidableEq

/-- Model of build.rs `main` after segmentation: process every table, then
finalize the ledger accumulated across all rows (recordings are folded in
order, matching the interleaved `HashMap` updates of the source). -/
def build_main (tables : List (Str × List Combinator)) (remainder : Str) :
    Except Unit Document :=
  match processTables [] tables with
  | .error e => .error e
  | .ok (touts, recs, _) =>
    .ok ⟨touts, remainder, finalize (recs.foldl record ⟨[], []⟩)⟩

instance : IsTotal UseStmt (fun a b => useText a ≤ useText b) :=
  ⟨fun a b => le_total (useText a) (useText b)⟩

instance : IsTrans UseStmt (fun a b => useText a ≤ useText b) :=
  ⟨fun _ _ _ h1 h2 => le_trans h1 h2⟩

/-- A symbol is conflicted when two different use items were both recorded
for it somewhere in the recording sequence. -/
def Conflicted (recs : List (Str × UseStmt)) (n : Str) : Prop :=
  ∃ s t, (n, s) ∈ recs ∧ (n, t) ∈ recs ∧ s ≠ t

/-- The last use item recorded for a symbol, if any. -/
def lastRecorded (recs : List (Str × UseStmt)) (n : Str) : Option UseStmt :=
  (recs.filterMap (fun p => if p.1 = n then some p.2 else none)).getLast?

/-- The relation between the recording history and the ledger state built by
folding `record` over it: keys are unique, lookup yields the last recorded
item, and the conflict set holds exactly the conflicted symbols. -/
def LedgerInv (recs : List (Str × UseStmt)) (st : Ledger) : Prop :=
  (st.uses.map Prod.fst).Nodup ∧
  (∀ n, alLookup n st.uses = lastRecorded recs n) ∧
  (∀ n, memStr n st.conflicts = true ↔ Conflicted recs n)

/-! ### Basic facts about the parser-combinator models -/

theorem splitUntil_eq_some {pat s a b : Str} (h : splitUntil pat s = some (a, b)) :
    s = a ++ b ∧ pat.isPrefixOf b = true := by
  induction s generalizing a b with
  | nil =>
    unfold splitUntil at h
    by_cases hp : pat.isPrefixOf ([] : Str)
    · simp [hp] at h
      obtain ⟨ha, hb⟩ := h
      subst ha; subst hb
      exact ⟨rfl, hp⟩
    · simp [hp] at h
  | cons c rest ih =>
    unfold splitUntil at h
    by_cases hp : pat.isPrefixOf (c :: rest)
    · simp [hp] at h
      obtain ⟨ha, hb⟩ := h
      subst ha; subst hb
      exact ⟨rfl, hp⟩
    · simp only [hp, if_neg, Bool.false_eq_true, if_false] at h
      cases hsp : splitUntil pat rest with
      | none => rw [hsp] at h; exact absurd h (by simp)
      | some ab =>
        rw [hsp] at h
        obtain ⟨a2, b2⟩ := ab
        simp at h
        obtain ⟨ha, hb⟩ := h
        obtain ⟨hrest, hpre⟩ := ih hsp
        subst hb
        rw [← ha]
        constructor
        · simp [hrest]
        · exact hpre

theorem tag_eq_some {pat s rest : Str} (h : tag pat s = some rest) :
    s = pat ++ rest := by
  unfold tag at h
  by_cases hp : pat.isPrefixOf s
  · simp [hp] at h
    obtain ⟨t, ht⟩ := List.isPrefixOf_iff_prefix.mp hp
    subst ht
    simp at h
    rw [← h]
  · simp [hp] at h

theorem line_ending_eq_some {s le rest : Str} (h : line_ending s = some (le, rest)) :
    s = le ++ rest ∧ (le = [nlc] ∨ le = [crc, nlc]) := by
  have hne : ¬(crc = nlc) := by decide
  unfold line_ending at h
  match s with
  | [] => exact absurd h (by simp)
  | c :: r =>
    by_cases hc : c = nlc
    · simp [hc] at h
      obtain ⟨h1, h2⟩ := h
      subst h1; subst h2; subst hc
      exact ⟨rfl, Or.inl rfl⟩
    · by_cases hc2 : c = crc
      · subst hc2
        simp only [hne, if_neg, if_false, hc, if_true] at h
        match r with
        | [] => exact absurd h (by simp)
        | c2 :: r2 =>
          by_cases hc3 : c2 = nlc
          · simp [hc3] at h
            obtain ⟨h1, h2⟩ := h
            subst h1; subst h2; subst hc3
            exact ⟨rfl, Or.inr rfl⟩
          · simp [hc3] at h
      · simp [hc, hc2] at h

/-! ### C10: the `str` / `[u8]` end-boundary asymmetry of `subslice_offset_bytes` -/

/-- C10: `subslice_offset_bytes` treats the end boundary asymmetrically: for a
`str` parent the empty subslice at the parent's very end returns `none`, while
for a `[u8]` parent the same empty subslice returns `some (parent length)`;
consequently `format_iresult` over a `str` input aborts (models the `unwrap`
panic) when an Error or Failure outcome carries that empty end-of-input
remainder as its location. -/
theorem claim_c10_end_boundary_asymmetry (p : Span) (code : Str) :
    str_subslice_offset_bytes p ⟨p.ptr + p.len, 0⟩ = none ∧
    u8_subslice_offset_bytes p ⟨p.ptr + p.len, 0⟩ = some p.len ∧
    format_iresult str_subslice_offset_bytes p (.error ⟨p.ptr + p.len, 0⟩ code) =
      .error () ∧
    format_iresult str_subslice_offset_bytes p (.failure ⟨p.ptr + p.len, 0⟩ code) =
      .error () := by
  have hstr : str_subslice_offset_bytes p ⟨p.ptr + p.len, 0⟩ = none := by
    unfold str_subslice_offset_bytes
    simp
  have hu8 : u8_subslice_offset_bytes p ⟨p.ptr + p.len, 0⟩ = some p.len := by
    unfold u8_subslice_offset_bytes
    simp
  refine ⟨hstr, hu8, ?_, ?_⟩
  · simp [format_iresult, hstr]
  · simp [format_iresult, hstr]

/-! ### C7: `format_iresult` on Error/Failure outcomes -/

/-- The containment condition decided by the `str` impl, in plain terms. -/
theorem str_subslice_offset_bytes_eq_some (self sub : Span) (o : ℕ) :
    str_subslice_offset_bytes self sub = some o ↔
      (self.ptr ≤ sub.ptr ∧ sub.ptr ≠ self.ptr + self.len ∧
        sub.ptr + sub.len ≤ self.ptr + self.len ∧ o = sub.ptr - self.ptr) := by
  unfold str_subslice_offset_bytes
  dsimp only
  split_ifs with h1 h2
  · constructor
    · intro h; exact absurd h (by simp)
    · rintro ⟨ha, hb, hc, _⟩
      exfalso
      rcases h1 with h1 | h1 | h1
      · omega
      · exact hb h1
      · omega
  · push_neg at h1
    exfalso
    rcases h2 with h2 | h2 <;> omega
  · push_neg at h1
    simp only [Option.some.injEq]
    constructor
    · intro h
      exact ⟨by omega, h1.2.1, by omega, h.symm⟩
    · rintro ⟨_, _, _, ho⟩
      omega

/-- C7: on an Error or Failure outcome, `format_iresult` computes the failing
location's byte offset from the start of the original input through the
span-containment test of `subslice_offset_bytes` (pointer identity, not text
search: the offset is a function of the spans alone), and renders the kind tag,
that offset and the diagnostic code; when the location is not a sub-span of the
input it aborts (`Except.error ()`, the `unwrap` panic) instead of emitting an
offset. -/
theorem claim_c7_format_iresult_error (input location : Span) (code : Str) :
    (str_subslice_offset_bytes input location = none →
      format_iresult str_subslice_offset_bytes input (.error location code) =
        .error () ∧
      format_iresult str_subslice_offset_bytes input (.failure location code) =
        .error ()) ∧
    (∀ o, str_subslice_offset_bytes input location = some o →
      input.ptr ≤ location.ptr ∧
      location.ptr + location.len ≤ input.ptr + input.len ∧
      o = location.ptr - input.ptr ∧
      format_iresult str_subslice_offset_bytes input (.error location code) =
        .ok (lit "Error<br>Byte offset: " ++ lit (toString o) ++
          lit "<br>Code: " ++ code) ∧
      format_iresult str_subslice_offset_bytes input (.failure location code) =
        .ok (lit "Failure<br>Byte offset: " ++ lit (toString o) ++
          lit "<br>Code: " ++ code)) := by
  constructor
  · intro h
    constructor
    · simp [format_iresult, h]
    · simp [format_iresult, h]
  · intro o h
    obtain ⟨h1, h2, h3, h4⟩ := (str_subslice_offset_bytes_eq_some input location o).mp h
    refine ⟨h1, h3, h4, ?_, ?_⟩
    · simp [format_iresult, h]
    · simp [format_iresult, h]

/-- Witness for C7 at a concrete input: the original input is the span at
address 0 of length 4, the failing location the sub-span at address 2 of
length 2; the reported byte offset is 2. -/
theorem claim_c7_format_iresult_error_witness :
    Span.ptr ⟨0, 4⟩ ≤ Span.ptr ⟨2, 2⟩ ∧
    Span.ptr ⟨2, 2⟩ + Span.len ⟨2, 2⟩ ≤ Span.ptr ⟨0, 4⟩ + Span.len ⟨0, 4⟩ ∧
    2 = Span.ptr ⟨2, 2⟩ - Span.ptr ⟨0, 4⟩ ∧
    format_iresult str_subslice_offset_bytes ⟨0, 4⟩ (.error ⟨2, 2⟩ (lit "Tag")) =
      .ok (lit "Error<br>Byte offset: " ++ lit (toString 2) ++
        lit "<br>Code: " ++ lit "Tag") ∧
    format_iresult str_subslice_offset_bytes ⟨0, 4⟩ (.failure ⟨2, 2⟩ (lit "Tag")) =
      .ok (lit "Failure<br>Byte offset: " ++ lit (toString 2) ++
        lit "<br>Code: " ++ lit "Tag") :=
  (claim_c7_format_iresult_error ⟨0, 4⟩ ⟨2, 2⟩ (lit "Tag")).2 2 (by decide)

/-! ### C8: space stripping of extracted code spans -/

/-- C8: for every back-quoted code span successfully extracted by
`parse_code_span`, writing `raw` for the span text between the two back-quote
runs, one leading and one trailing space are stripped only when both are
present; when at most one of the two is present the content is returned
unchanged. -/
theorem claim_c8_code_span_space_stripping (s code rest : Str)
    (h : parse_code_span s = some (code, rest)) :
    ∃ ticks raw, ticks ≠ [] ∧ (∀ c ∈ ticks, c = bq) ∧
      s = ticks ++ raw ++ ticks ++ rest ∧
      ((2 ≤ raw.length ∧ raw.head? = some spc ∧ raw.getLast? = some spc) →
        code = (raw.drop 1).dropLast) ∧
      ((¬raw.head? = some spc ∨ ¬raw.getLast? = some spc) → code = raw) := by
  unfold parse_code_span at h
  by_cases hbt : s.takeWhile (fun c => c = bq) = []
  · simp [hbt] at h
  · simp only [hbt, if_neg, if_false] at h
    cases hsp : splitUntil (s.takeWhile (fun c => c = bq)) (s.dropWhile (fun c => c = bq)) with
    | none => rw [hsp] at h; exact absurd h (by simp)
    | some cs2 =>
      rw [hsp] at h
      obtain ⟨raw, s2⟩ := cs2
      simp only at h
      cases htg : tag (s.takeWhile (fun c => c = bq)) s2 with
      | none => rw [htg] at h; exact absurd h (by simp)
      | some s3 =>
        rw [htg] at h
        simp only [Option.some.injEq, Prod.mk.injEq] at h
        obtain ⟨hcode, hrest⟩ := h
        refine ⟨s.takeWhile (fun c => c = bq), raw, hbt, ?_, ?_, ?_, ?_⟩
        · intro c hc
          have := List.mem_takeWhile_imp hc
          simpa using this
        · obtain ⟨hsplit, _⟩ := splitUntil_eq_some hsp
          have hs2 := tag_eq_some htg
          subst hrest
          conv_lhs => rw [← List.takeWhile_append_dropWhile (fun c => c = bq) s]
          rw [hsplit, hs2]
          simp
        · intro hcond
          rw [← hcode]
          simp [hcond]
        · intro hcond
          rw [← hcode]
          have : ¬(2 ≤ raw.length ∧ raw.head? = some spc ∧ raw.getLast? = some spc) := by
            rintro ⟨_, hh, hl⟩
            rcases hcond with hc | hc
            · exact hc hh
            · exact hc hl
          simp [this]

/-- Witness for C8 at the concrete span `` ` a ` `` (content ` a ` between
single back-quote delimiters): both a leading and a trailing space are present,
so they are stripped and the code is `a`. -/
theorem claim_c8_code_span_space_stripping_witness :
    ∃ ticks raw, ticks ≠ [] ∧ (∀ c ∈ ticks, c = bq) ∧
      [bq, spc, 'a', spc, bq] = ticks ++ raw ++ ticks ++ [] ∧
      ((2 ≤ raw.length ∧ raw.head? = some spc ∧ raw.getLast? = some spc) →
        ['a'] = (raw.drop 1).dropLast) ∧
      ((¬raw.head? = some spc ∨ ¬raw.getLast? = some spc) → ['a'] = raw) :=
  claim_c8_code_span_space_stripping [bq, spc, 'a', spc, bq] ['a'] [] (by decide)

/-! ### C3: `markdown_format_code` wraps in a delimiter one longer than the
longest back-quote run -/

theorem maxRunAux_cons_bq (rest : Str) (maxv count : ℕ) :
    maxRunAux (bq :: rest) maxv count =
      maxRunAux rest (Nat.max maxv (count + 1)) (count + 1) := by
  simp [maxRunAux]

theorem maxRunAux_cons_ne {c : Char} (hc : c ≠ bq) (rest : Str) (maxv count : ℕ) :
    maxRunAux (c :: rest) maxv count = maxRunAux rest maxv 0 := by
  simp [maxRunAux, hc]

theorem natMaxZero (n : ℕ) : Nat.max 0 n = n := Nat.max_eq_right (Nat.zero_le n)

theorem natMaxEqLeft {a b : ℕ} (h : b ≤ a) : Nat.max a b = a := Nat.max_eq_left h

theorem natMaxEqRight {a b : ℕ} (h : a ≤ b) : Nat.max a b = b := Nat.max_eq_right h

theorem natMaxAssoc (a b c : ℕ) :
    Nat.max (Nat.max a b) c = Nat.max a (Nat.max b c) := Nat.max_assoc a b c

theorem natLeMaxLeft (a b : ℕ) : a ≤ Nat.max a b := Nat.le_max_left a b

theorem natLeMaxRight (a b : ℕ) : b ≤ Nat.max a b := Nat.le_max_right a b

theorem natMaxLe {a b c : ℕ} (h1 : a ≤ c) (h2 : b ≤ c) : Nat.max a b ≤ c :=
  Nat.max_le.mpr ⟨h1, h2⟩

theorem maxRunAux_max (s : Str) :
    ∀ maxv count, maxRunAux s maxv count = Nat.max maxv (maxRunAux s 0 count) := by
  induction s with
  | nil => intro maxv count; simp [maxRunAux]
  | cons c rest ih =>
    intro maxv count
    by_cases hc : c = bq
    · subst hc
      rw [maxRunAux_cons_bq, maxRunAux_cons_bq]
      rw [ih (Nat.max maxv (count + 1)) (count + 1), ih (Nat.max 0 (count + 1)) (count + 1)]
      rw [natMaxZero]
      rw [natMaxAssoc]
    · rw [maxRunAux_cons_ne hc, maxRunAux_cons_ne hc]
      exact ih maxv 0

theorem maxRunAux_mono (s : Str) :
    ∀ a b, a ≤ b → maxRunAux s 0 a ≤ maxRunAux s 0 b := by
  induction s with
  | nil => intro a b _; simp [maxRunAux]
  | cons c rest ih =>
    intro a b hab
    by_cases hc : c = bq
    · subst hc
      rw [maxRunAux_cons_bq, maxRunAux_cons_bq]
      rw [maxRunAux_max rest (Nat.max 0 (a + 1)) (a + 1),
        maxRunAux_max rest (Nat.max 0 (b + 1)) (b + 1)]
      rw [natMaxZero, natMaxZero]
      have := ih (a + 1) (b + 1) (by omega)
      exact natMaxLe (Nat.le_trans (by omega) (natLeMaxLeft _ _))
        (Nat.le_trans this (natLeMaxRight _ _))
    · rw [maxRunAux_cons_ne hc, maxRunAux_cons_ne hc]

theorem maxRunAux_of_prefix_run (n : ℕ) :
    ∀ count s, List.replicate n bq <+: s → 1 ≤ n →
      count + n ≤ maxRunAux s 0 count := by
  induction n with
  | zero => intro _ _ _ h; omega
  | succ n ih =>
    intro count s hpre _
    match s with
    | [] =>
      exfalso
      have := hpre.length_le
      simp at this
    | c :: rest =>
      rw [List.replicate_succ] at hpre
      rw [List.cons_prefix_cons] at hpre
      obtain ⟨hcb, hrest⟩ := hpre
      rw [← hcb, maxRunAux_cons_bq]
      rw [maxRunAux_max rest (Nat.max 0 (count + 1)) (count + 1)]
      rw [natMaxZero]
      by_cases hn : 1 ≤ n
      · have := ih (count + 1) rest hrest hn
        exact Nat.le_trans (by omega) (natLeMaxRight _ _)
      · have hn0 : n = 0 := by omega
        subst hn0
        exact Nat.le_trans (by omega) (natLeMaxLeft _ _)

theorem le_maxRun_of_infix_run (n : ℕ) :
    ∀ s, List.replicate n bq <:+: s → n ≤ maxRun s := by
  induction n with
  | zero => intro s _; omega
  | succ n _ =>
    intro s hinf
    induction s with
    | nil =>
      rw [List.infix_nil] at hinf
      exact absurd hinf (by simp)
    | cons c rest ihs =>
      rw [List.infix_cons_iff] at hinf
      rcases hinf with hpre | hinf
      · have := maxRunAux_of_prefix_run (n + 1) 0 (c :: rest) hpre (by omega)
        unfold maxRun
        omega
      · have h1 := ihs hinf
        unfold maxRun at h1 ⊢
        by_cases hc : c = bq
        · rw [hc, maxRunAux_cons_bq]
          rw [maxRunAux_max rest (Nat.max 0 1) 1]
          rw [natMaxZero]
          have := maxRunAux_mono rest 0 1 (by omega)
          exact Nat.le_trans (Nat.le_trans h1 this) (natLeMaxRight _ _)
        · rw [maxRunAux_cons_ne hc]
          exact h1

theorem replicate_maxRunAux_infix (s : Str) :
    ∀ count, List.replicate (maxRunAux s 0 count) bq <:+:
      (List.replicate count bq ++ s) := by
  induction s with
  | nil => intro count; simp [maxRunAux]
  | cons c rest ih =>
    intro count
    have hsplit : List.replicate count bq ++ c :: rest =
        List.replicate count bq ++ [c] ++ rest := by simp
    by_cases hc : c = bq
    · subst hc
      have hrepl : List.replicate count bq ++ [bq] = List.replicate (count + 1) bq := by
        rw [List.replicate_succ']
      rw [maxRunAux_cons_bq]
      rw [maxRunAux_max rest (Nat.max 0 (count + 1)) (count + 1)]
      rw [natMaxZero]
      rcases le_total (maxRunAux rest 0 (count + 1)) (count + 1) with hle | hle
      · rw [natMaxEqLeft hle]
        have : List.replicate (count + 1) bq <+:
            List.replicate count bq ++ bq :: rest := by
          rw [hsplit, hrepl]
          exact List.prefix_append _ _
        exact this.isInfix
      · rw [natMaxEqRight hle]
        have h2 := ih (count + 1)
        rw [← hrepl] at h2
        rw [hsplit]
        simpa using h2
    · rw [maxRunAux_cons_ne hc]
      have h2 := ih 0
      simp only [List.replicate_zero, List.nil_append] at h2
      refine h2.trans ?_
      have : rest <:+ List.replicate count bq ++ c :: rest := by
        refine (List.suffix_cons c rest).trans (List.suffix_append _ _)
      exact this.isInfix

/-- C3: `markdown_format_code` wraps its input in a back-quote delimiter of
length exactly one more than the longest back-quote run occurring in the input
(a run of `maxRun s` back-quotes occurs in `s`, a run of `maxRun s + 1` does
not), and pads both ends with one space exactly when the input starts or ends
with a back-quote or both starts and ends with a space. -/
theorem claim_c3_markdown_format_code (s : Str) :
    ∃ pad : Str,
      markdown_format_code s =
        List.replicate (maxRun s + 1) bq ++ pad ++ s ++ pad ++
          List.replicate (maxRun s + 1) bq ∧
      List.replicate (maxRun s) bq <:+: s ∧
      ¬List.replicate (maxRun s + 1) bq <:+: s ∧
      (pad = [spc] ↔
        ((s.head? = some bq ∨ s.getLast? = some bq) ∨
          (s.head? = some spc ∧ s.getLast? = some spc))) ∧
      (pad = [spc] ∨ pad = []) := by
  by_cases hcond : (s.head? = some bq ∨ s.getLast? = some bq) ∨
      (s.head? = some spc ∧ s.getLast? = some spc)
  · refine ⟨[spc], ?_, ?_, ?_, ?_, Or.inl rfl⟩
    · unfold markdown_format_code
      rw [if_pos hcond]
    · have := replicate_maxRunAux_infix s 0
      simpa using this
    · intro hinf
      have := le_maxRun_of_infix_run (maxRun s + 1) s hinf
      omega
    · simp [hcond]
  · refine ⟨[], ?_, ?_, ?_, ?_, Or.inr rfl⟩
    · unfold markdown_format_code
      rw [if_neg hcond]
    · have := replicate_maxRunAux_infix s 0
      simpa using this
    · intro hinf
      have := le_maxRun_of_infix_run (maxRun s + 1) s hinf
      omega
    · simp only [iff_false_intro hcond, iff_false]
      simp

/-! ### C4: the chosen delimiter run occurs only at the two ends of the
escaped result -/

theorem occursAt_getElem {l : Str} {i n : ℕ} (h : occursAt l i n) :
    ∀ j, j < n → l[i + j]? = some bq := by
  intro j hj
  obtain ⟨t, ht⟩ := h
  rw [← List.getElem?_drop]
  rw [← ht]
  rw [List.getElem?_append_left (by simpa using hj)]
  rw [List.getElem?_replicate]
  simp [hj]

theorem occursAt_le_length {l : Str} {i n : ℕ} (h : occursAt l i n) (hn : 1 ≤ n) :
    i + n ≤ l.length := by
  have h1 := h.length_le
  simp only [List.length_replicate, List.length_drop] at h1
  omega

theorem run_infix_cons_elim {n : ℕ} {c : Char} {l : Str}
    (h : List.replicate (n + 1) bq <:+: c :: l) (hc : c ≠ bq) :
    List.replicate (n + 1) bq <:+: l := by
  rcases List.infix_cons_iff.mp h with hpre | hinf
  · rw [List.replicate_succ] at hpre
    obtain ⟨heq, _⟩ := List.cons_prefix_cons.mp hpre
    exact absurd heq.symm hc
  · exact hinf

theorem run_infix_snoc_elim {n : ℕ} {c : Char} {l : Str}
    (h : List.replicate (n + 1) bq <:+: l ++ [c]) (hc : c ≠ bq) :
    List.replicate (n + 1) bq <:+: l := by
  have h1 : (List.replicate (n + 1) bq).reverse <:+: (l ++ [c]).reverse :=
    List.reverse_infix.mpr h
  rw [List.reverse_replicate, List.reverse_append] at h1
  simp only [List.reverse_singleton, List.singleton_append] at h1
  have h2 := run_infix_cons_elim h1 hc
  have h3 : (List.replicate (n + 1) bq).reverse <:+: l.reverse := by
    rw [List.reverse_replicate]; exact h2
  exact List.reverse_infix.mp h3

theorem runs_only_at_ends (d1 : ℕ) (mid : Str) (hd1 : 1 ≤ d1)
    (hhead : 0 < mid.length → ¬mid.head? = some bq)
    (hlast : 0 < mid.length → ¬mid.getLast? = some bq)
    (hM0 : mid.length = 0 → d1 = 1)
    (hno : ¬List.replicate d1 bq <:+: mid) :
    ∀ i, occursAt (List.replicate d1 bq ++ mid ++ List.replicate d1 bq) i d1 →
      i = 0 ∨ i = d1 + mid.length := by
  intro i hocc
  have hlen : (List.replicate d1 bq ++ mid ++ List.replicate d1 bq).length =
      d1 + mid.length + d1 := by
    simp only [List.length_append, List.length_replicate]
  have hbound := occursAt_le_length hocc hd1
  rw [hlen] at hbound
  by_cases hi0 : i = 0
  · exact Or.inl hi0
  by_cases hiend : i = d1 + mid.length
  · exact Or.inr hiend
  exfalso
  have hi1 : 1 ≤ i := by omega
  have hilt : i < d1 + mid.length := by omega
  rcases Nat.eq_zero_or_pos mid.length with hMz | hMpos
  · have := hM0 hMz
    omega
  by_cases hcase : i < d1
  · -- the occurrence window covers position d1, the head of `mid`
    have hget := occursAt_getElem hocc (d1 - i) (by omega)
    have hij : i + (d1 - i) = d1 := by omega
    rw [hij] at hget
    have hgetR : (List.replicate d1 bq ++ mid ++ List.replicate d1 bq)[d1]? =
        mid[0]? := by
      rw [List.append_assoc]
      rw [List.getElem?_append_right (by simp : (List.replicate d1 bq).length ≤ d1)]
      simp only [List.length_replicate, Nat.sub_self]
      rw [List.getElem?_append_left hMpos]
    rw [hgetR, ← List.head?_eq_getElem?] at hget
    exact hhead hMpos hget
  · push_neg at hcase
    by_cases hcase2 : i + d1 ≤ d1 + mid.length
    · -- the occurrence lies entirely inside `mid`
      have hdrop : (List.replicate d1 bq ++ mid ++ List.replicate d1 bq).drop i =
          mid.drop (i - d1) ++ List.replicate d1 bq := by
        rw [List.append_assoc, List.drop_append_eq_append_drop]
        rw [List.drop_eq_nil_of_le (by simp; omega)]
        rw [List.nil_append, List.length_replicate]
        rw [List.drop_append_eq_append_drop]
        have h0 : i - d1 - mid.length = 0 := by omega
        rw [h0, List.drop_zero]
      rw [occursAt, hdrop] at hocc
      have htake := List.prefix_iff_eq_take.mp hocc
      rw [List.length_replicate] at htake
      rw [List.take_append_of_le_length (by simp; omega)] at htake
      have hpre : List.replicate d1 bq <+: mid.drop (i - d1) := by
        rw [htake]
        exact List.take_prefix _ _
      exact hno (hpre.isInfix.trans (List.drop_suffix (i - d1) mid).isInfix)
    · -- the occurrence window covers position d1 + |mid| - 1, the last of `mid`
      push_neg at hcase2
      have hget := occursAt_getElem hocc (d1 + mid.length - 1 - i) (by omega)
      have hij : i + (d1 + mid.length - 1 - i) = d1 + mid.length - 1 := by omega
      rw [hij] at hget
      have hgetR : (List.replicate d1 bq ++ mid ++ List.replicate d1 bq)[d1 + mid.length - 1]? = mid[mid.length - 1]? := by
        rw [List.append_assoc]
        rw [List.getElem?_append_right (by simp; omega)]
        simp only [List.length_replicate]
        have h1 : d1 + mid.length - 1 - d1 = mid.length - 1 := by omega
        rw [h1]
        rw [List.getElem?_append_left (by omega)]
      rw [hgetR, ← List.getLast?_eq_getElem?] at hget
      exact hlast hMpos hget

/-- Decomposition of `markdown_format_code s` into delimiter, padded middle and
delimiter, together with which padding was chosen. -/
theorem markdown_format_code_structure (s : Str) :
    ∃ pad : Str,
      markdown_format_code s =
        List.replicate (maxRun s + 1) bq ++ (pad ++ s ++ pad) ++
          List.replicate (maxRun s + 1) bq ∧
      ((pad = [spc] ∧ ((s.head? = some bq ∨ s.getLast? = some bq) ∨
          (s.head? = some spc ∧ s.getLast? = some spc))) ∨
        (pad = [] ∧ ¬((s.head? = some bq ∨ s.getLast? = some bq) ∨
          (s.head? = some spc ∧ s.getLast? = some spc)))) := by
  by_cases hcond : (s.head? = some bq ∨ s.getLast? = some bq) ∨
      (s.head? = some spc ∧ s.getLast? = some spc)
  · refine ⟨[spc], ?_, Or.inl ⟨rfl, hcond⟩⟩
    unfold markdown_format_code
    rw [if_pos hcond]
    simp [List.append_assoc]
  · refine ⟨[], ?_, Or.inr ⟨rfl, hcond⟩⟩
    unfold markdown_format_code
    rw [if_neg hcond]
    simp [List.append_assoc]

/-- C4: re-scanning `markdown_format_code s` for runs of back-quotes of the
chosen delimiter's length (`maxRun s + 1`) finds them only at the two ends of
the result — the two intended delimiters, which do both occur there — never
inside the padded/escaped content. -/
theorem claim_c4_delimiter_only_at_ends (s : Str) :
    occursAt (markdown_format_code s) 0 (maxRun s + 1) ∧
    occursAt (markdown_format_code s)
      ((markdown_format_code s).length - (maxRun s + 1)) (maxRun s + 1) ∧
    ∀ i, occursAt (markdown_format_code s) i (maxRun s + 1) →
      i = 0 ∨ i = (markdown_format_code s).length - (maxRun s + 1) := by
  obtain ⟨pad, hmf, hpad⟩ := markdown_format_code_structure s
  have hnobq : ¬List.replicate (maxRun s + 1) bq <:+: s := by
    intro hinf
    have := le_maxRun_of_infix_run (maxRun s + 1) s hinf
    omega
  have hno : ¬List.replicate (maxRun s + 1) bq <:+: (pad ++ s ++ pad) := by
    rcases hpad with ⟨hp, _⟩ | ⟨hp, _⟩
    · subst hp
      intro hinf
      have hinf2 : List.replicate (maxRun s + 1) bq <:+: spc :: (s ++ [spc]) := by
        simpa using hinf
      have h1 := run_infix_cons_elim hinf2 (show spc ≠ bq by decide)
      exact hnobq (run_infix_snoc_elim h1 (show spc ≠ bq by decide))
    · subst hp
      simp only [List.append_nil, List.nil_append]
      exact hnobq
  have hhead : 0 < (pad ++ s ++ pad).length → ¬(pad ++ s ++ pad).head? = some bq := by
    intro _
    rcases hpad with ⟨hp, _⟩ | ⟨hp, hcond⟩
    · subst hp
      simp only [List.append_assoc, List.singleton_append, List.head?_cons]
      intro h
      exact absurd (Option.some.inj h) (by decide)
    · subst hp
      simp only [List.append_nil, List.nil_append]
      push_neg at hcond
      exact hcond.1.1
  have hlast : 0 < (pad ++ s ++ pad).length → ¬(pad ++ s ++ pad).getLast? = some bq := by
    intro _
    rcases hpad with ⟨hp, _⟩ | ⟨hp, hcond⟩
    · subst hp
      rw [List.getLast?_concat]
      intro h
      exact absurd (Option.some.inj h) (by decide)
    · subst hp
      simp only [List.append_nil, List.nil_append]
      push_neg at hcond
      exact hcond.1.2
  have hM0 : (pad ++ s ++ pad).length = 0 → maxRun s + 1 = 1 := by
    intro hlen0
    simp only [List.length_append] at hlen0
    have hs : s = [] := by
      cases s with
      | nil => rfl
      | cons c rest => simp at hlen0
    subst hs
    rfl
  have hends := runs_only_at_ends (maxRun s + 1) (pad ++ s ++ pad) (by omega)
    hhead hlast hM0 hno
  have hlenR : (markdown_format_code s).length =
      (maxRun s + 1) + (pad ++ s ++ pad).length + (maxRun s + 1) := by
    rw [hmf]
    simp only [List.length_append, List.length_replicate]
  have hsub : (markdown_format_code s).length - (maxRun s + 1) =
      (maxRun s + 1) + (pad ++ s ++ pad).length := by omega
  refine ⟨?_, ?_, ?_⟩
  · rw [occursAt, hmf, List.drop_zero, List.append_assoc]
    exact List.prefix_append _ _
  · rw [occursAt, hsub, hmf]
    have hlen2 : (List.replicate (maxRun s + 1) bq ++ (pad ++ s ++ pad)).length =
        (maxRun s + 1) + (pad ++ s ++ pad).length := by
      simp only [List.length_append, List.length_replicate]
    rw [← hlen2, List.drop_left]
  · intro i hocc
    rw [hmf] at hocc
    rcases hends i hocc with h | h
    · exact Or.inl h
    · rw [hsub]
      exact Or.inr h

/-- Witness for C4 at the concrete input `a`: position 0 carries the
delimiter run, so the theorem reports it as one of the two ends. -/
theorem claim_c4_delimiter_only_at_ends_witness :
    (0 : ℕ) = 0 ∨
      (0 : ℕ) = (markdown_format_code ['a']).length - (maxRun ['a'] + 1) :=
  (claim_c4_delimiter_only_at_ends ['a']).2.2 0 (by decide)

/-! ### Facts about row processing -/

theorem processRow_ok_parts {lastUrls : List Url} {c : Combinator} {line recs next}
    (h : processRow lastUrls c = .ok (line, recs, next)) :
    next = effUrls lastUrls c ∧ recs = rowRecordings lastUrls c ∧
      rowUrlcol line = urlstrings c.urls ∧
      (∀ us, rowBlockUses line = some us →
        us = c.localImports ++ rowUses lastUrls c) := by
  unfold processRow at h
  match hi : c.input, hu : c.usage with
  | none, none =>
    rw [hi, hu] at h
    simp only [Except.ok.injEq, Prod.mk.injEq] at h
    obtain ⟨hl, hr, hn⟩ := h
    subst hl; subst hr; subst hn
    refine ⟨rfl, rfl, rfl, ?_⟩
    intro us hus
    simp [rowBlockUses] at hus
  | some inp, some usg =>
    rw [hi, hu] at h
    simp only [Except.ok.injEq, Prod.mk.injEq] at h
    obtain ⟨hl, hr, hn⟩ := h
    subst hl; subst hr; subst hn
    refine ⟨rfl, rfl, rfl, ?_⟩
    intro us hus
    simp only [rowBlockUses, Option.some.injEq] at hus
    exact hus.symm
  | some _, none => rw [hi, hu] at h; exact absurd h (by simp)
  | none, some _ => rw [hi, hu] at h; exact absurd h (by simp)

theorem infix_of_mem_joinBr {x : Str} : ∀ {xs : List Str}, x ∈ xs → x <:+: joinBr xs := by
  intro xs
  induction xs with
  | nil => intro h; exact absurd h (by simp)
  | cons y rest ih =>
    intro h
    match rest with
    | [] =>
      simp at h
      subst h
      exact List.infix_refl x
    | z :: rest2 =>
      rcases List.mem_cons.mp h with hx | hx
      · subst hx
        show x <:+: x ++ lit "<br>" ++ joinBr (z :: rest2)
        rw [List.append_assoc]
        exact (List.prefix_append _ _).isInfix
      · have h2 := ih hx
        show x <:+: y ++ lit "<br>" ++ joinBr (z :: rest2)
        exact h2.trans (List.suffix_append _ _).isInfix

theorem docsurl_infix_urlstring (u : Url) : u.docsurl <:+: urlstring u := by
  refine ⟨u.module ++ lit "::[" ++ u.name ++ lit "](", lit ")", ?_⟩
  simp [urlstring, List.append_assoc]

/-! ### C1: carry-forward and the rendered reference column -/

/-- C1 counterexample: a table whose first row resolves the single reference
`m::f` and whose second row has an empty reference list.  The second emitted
row's reference column is empty, not identical to the first row's. -/
theorem claim_c1_carry_forward_counterexample :
    processRows []
        [⟨[⟨lit "m", lit "f", lit "u"⟩], [], none, none, lit "d1"⟩,
         ⟨[], [], none, none, lit "d2"⟩] =
      .ok ([RowLine.staticRow (urlstring ⟨lit "m", lit "f", lit "u"⟩) (lit "d1"),
            RowLine.staticRow [] (lit "d2")],
        [(lit "f", ⟨lit "m", lit "f"⟩), (lit "f", ⟨lit "m", lit "f"⟩)],
        [⟨lit "m", lit "f", lit "u"⟩]) ∧
    urlstring ⟨lit "m", lit "f", lit "u"⟩ ≠ [] := by
  constructor
  · rfl
  · simp [urlstring, lit]

/-- C1 (amended): an empty reference list does inherit the previous row's
resolved references — they become the new `last_urls` and feed the row's
ledger recordings — but the rendered reference column is built from the row's
own (empty) reference list, so the second row's reference column renders
empty rather than identically to the first row's. -/
theorem claim_c1_carry_forward_amended (lastUrls : List Url) (c1 c2 : Combinator)
    (l1 : RowLine) (r1 : List (Str × UseStmt)) (n1 : List Url)
    (l2 : RowLine) (r2 : List (Str × UseStmt)) (n2 : List Url)
    (h1 : c1.urls ≠ []) (h2 : c2.urls = [])
    (hp1 : processRow lastUrls c1 = .ok (l1, r1, n1))
    (hp2 : processRow n1 c2 = .ok (l2, r2, n2)) :
    n1 = c1.urls ∧ n2 = c1.urls ∧
    rowUrlcol l1 = urlstrings c1.urls ∧
    rowUrlcol l2 = [] ∧
    r2 = (c1.urls.filter (fun u => !excludedModule u.module)).map
      (fun u => (u.name, mkUse u)) := by
  obtain ⟨hn1, _, hcol1, _⟩ := processRow_ok_parts hp1
  obtain ⟨hn2, hr2, hcol2, _⟩ := processRow_ok_parts hp2
  have heff1 : effUrls lastUrls c1 = c1.urls := by
    unfold effUrls
    rw [if_neg h1]
  have heff2 : effUrls n1 c2 = n1 := by
    unfold effUrls
    rw [if_pos h2]
  refine ⟨hn1.trans heff1, ?_, hcol1, ?_, ?_⟩
  · rw [hn2, heff2, hn1, heff1]
  · rw [hcol2, h2]
    rfl
  · rw [hr2]
    unfold rowRecordings
    rw [heff2, hn1, heff1]

/-- Witness for the amended C1 at the concrete two-row table of the
counterexample. -/
theorem claim_c1_carry_forward_amended_witness :
    [⟨lit "m", lit "f", lit "u"⟩] =
        Combinator.urls ⟨[⟨lit "m", lit "f", lit "u"⟩], [], none, none, lit "d1"⟩ ∧
      [⟨lit "m", lit "f", lit "u"⟩] =
        Combinator.urls ⟨[⟨lit "m", lit "f", lit "u"⟩], [], none, none, lit "d1"⟩ ∧
      rowUrlcol (RowLine.staticRow (urlstring ⟨lit "m", lit "f", lit "u"⟩) (lit "d1")) =
        urlstrings (Combinator.urls ⟨[⟨lit "m", lit "f", lit "u"⟩], [], none, none, lit "d1"⟩) ∧
      rowUrlcol (RowLine.staticRow [] (lit "d2")) = [] ∧
      [(lit "f", ⟨lit "m", lit "f"⟩)] =
        ((Combinator.urls ⟨[⟨lit "m", lit "f", lit "u"⟩], [], none, none, lit "d1"⟩).filter
          (fun u => !excludedModule u.module)).map (fun u => (u.name, mkUse u)) :=
  claim_c1_carry_forward_amended []
    ⟨[⟨lit "m", lit "f", lit "u"⟩], [], none, none, lit "d1"⟩
    ⟨[], [], none, none, lit "d2"⟩
    (RowLine.staticRow (urlstring ⟨lit "m", lit "f", lit "u"⟩) (lit "d1"))
    [(lit "f", ⟨lit "m", lit "f"⟩)] [⟨lit "m", lit "f", lit "u"⟩]
    (RowLine.staticRow [] (lit "d2"))
    [(lit "f", ⟨lit "m", lit "f"⟩)] [⟨lit "m", lit "f", lit "u"⟩]
    (by simp) rfl rfl rfl

/-! ### C6: a row with exactly one of usage/input aborts the build -/

theorem processRow_error_of_mismatch {lastUrls : List Url} {c : Combinator}
    (h : (c.usage = none ∧ c.input ≠ none) ∨ (c.usage ≠ none ∧ c.input = none)) :
    processRow lastUrls c = .error () := by
  unfold processRow
  rcases h with ⟨hu, hi⟩ | ⟨hu, hi⟩
  · obtain ⟨i, hi2⟩ := Option.ne_none_iff_exists'.mp hi
    rw [hu, hi2]
  · obtain ⟨u, hu2⟩ := Option.ne_none_iff_exists'.mp hu
    rw [hu2, hi]

theorem processRows_error_of_mismatch {c : Combinator}
    (h : (c.usage = none ∧ c.input ≠ none) ∨ (c.usage ≠ none ∧ c.input = none)) :
    ∀ pre lastUrls post, processRows lastUrls (pre ++ c :: post) = .error () := by
  intro pre
  induction pre with
  | nil =>
    intro lastUrls post
    show processRows lastUrls (c :: post) = .error ()
    unfold processRows
    rw [processRow_error_of_mismatch h]
  | cons p pre ih =>
    intro lastUrls post
    show processRows lastUrls (p :: (pre ++ c :: post)) = .error ()
    unfold processRows
    cases hp : processRow lastUrls p with
    | error e => rfl
    | ok v =>
      obtain ⟨line, recs, next⟩ := v
      dsimp only
      rw [ih next post]

theorem processTables_error_of_mismatch {c : Combinator}
    (h : (c.usage = none ∧ c.input ≠ none) ∨ (c.usage ≠ none ∧ c.input = none)) :
    ∀ tables1 lastUrls preamble pre post tables2,
      processTables lastUrls
        (tables1 ++ (preamble, pre ++ c :: post) :: tables2) = .error () := by
  intro tables1
  induction tables1 with
  | nil =>
    intro lastUrls preamble pre post tables2
    show processTables lastUrls ((preamble, pre ++ c :: post) :: tables2) = .error ()
    unfold processTables
    rw [processRows_error_of_mismatch h pre lastUrls post]
  | cons t ts ih =>
    intro lastUrls preamble pre post tables2
    show processTables lastUrls
      (t :: (ts ++ (preamble, pre ++ c :: post) :: tables2)) = .error ()
    unfold processTables
    cases hp : processRows lastUrls t.2 with
    | error e => rfl
    | ok v =>
      obtain ⟨lines, recs, next⟩ := v
      dsimp only
      rw [ih next preamble pre post tables2]

/-- C6: a parsed row with exactly one of usage and input present makes the
whole build abort (the source panics at build.rs lines 342-344): whatever the
surrounding rows and tables, processing yields `Except.error ()` and no
document — hence no partial row — is produced. -/
theorem claim_c6_mismatched_row_aborts (lastUrls : List Url)
    (pre post : List Combinator) (c : Combinator)
    (tables1 tables2 : List (Str × List Combinator)) (preamble rem : Str)
    (h : (c.usage = none ∧ c.input ≠ none) ∨ (c.usage ≠ none ∧ c.input = none)) :
    processRow lastUrls c = .error () ∧
    processRows lastUrls (pre ++ c :: post) = .error () ∧
    build_main (tables1 ++ (preamble, pre ++ c :: post) :: tables2) rem =
      .error () := by
  refine ⟨processRow_error_of_mismatch h, processRows_error_of_mismatch h pre lastUrls post, ?_⟩
  unfold build_main
  rw [processTables_error_of_mismatch h tables1 [] preamble pre post tables2]

/-- Witness for C6: a concrete row with usage present and input absent, in a
document with one healthy preceding table and one healthy preceding row. -/
theorem claim_c6_mismatched_row_aborts_witness :
    processRow [] ⟨[], [], some (lit "f"), none, lit "bad"⟩ = .error () ∧
    processRows []
        ([⟨[⟨lit "m", lit "f", lit "u"⟩], [], none, none, lit "ok"⟩] ++
          ⟨[], [], some (lit "f"), none, lit "bad"⟩ :: []) = .error () ∧
    build_main
        ([(lit "P0", [⟨[⟨lit "m", lit "f", lit "u"⟩], [], none, none, lit "ok"⟩])] ++
          (lit "P1",
            [⟨[⟨lit "m", lit "f", lit "u"⟩], [], none, none, lit "ok"⟩] ++
              ⟨[], [], some (lit "f"), none, lit "bad"⟩ :: []) :: [])
        (lit "tail") = .error () :=
  claim_c6_mismatched_row_aborts []
    [⟨[⟨lit "m", lit "f", lit "u"⟩], [], none, none, lit "ok"⟩] []
    ⟨[], [], some (lit "f"), none, lit "bad"⟩
    [(lit "P0", [⟨[⟨lit "m", lit "f", lit "u"⟩], [], none, none, lit "ok"⟩])] []
    (lit "P1") (lit "tail")
    (Or.inr ⟨by simp, rfl⟩)

/-! ### C9: streaming/bits modules generate no import at all -/

/-- C9: for a reference whose module path ends with `streaming` or begins
with `bits`, no import statement is generated anywhere: the row's ledger
recordings do not contain the reference's symbol/item pair, the generated
(non-local) part of the row's block — which is exactly `localImports`
followed by the filtered `rowUses` — does not contain its use item, while its
documentation URL still renders inside the row's reference column. -/
theorem claim_c9_excluded_modules (lastUrls : List Url) (c : Combinator)
    (u : Url) (line : RowLine) (recs : List (Str × UseStmt)) (next : List Url)
    (hu : u ∈ c.urls) (hex : excludedModule u.module = true)
    (hp : processRow lastUrls c = .ok (line, recs, next)) :
    (u.name, mkUse u) ∉ recs ∧
    mkUse u ∉ rowUses lastUrls c ∧
    (∀ us, rowBlockUses line = some us →
      us = c.localImports ++ rowUses lastUrls c) ∧
    u.docsurl <:+: rowUrlcol line := by
  obtain ⟨_, hrecs, hcol, hblock⟩ := processRow_ok_parts hp
  refine ⟨?_, ?_, hblock, ?_⟩
  · intro hmem
    rw [hrecs] at hmem
    unfold rowRecordings at hmem
    obtain ⟨v, hv, hveq⟩ := List.mem_map.mp hmem
    obtain ⟨_, hvkeep⟩ := List.mem_filter.mp hv
    simp only [Prod.mk.injEq] at hveq
    have hmod : v.module = u.module := congrArg UseStmt.module hveq.2
    rw [hmod, hex] at hvkeep
    simp at hvkeep
  · intro hmem
    unfold rowUses at hmem
    obtain ⟨v, hv, hveq⟩ := List.mem_map.mp hmem
    obtain ⟨_, hvkeep⟩ := List.mem_filter.mp hv
    have hmod : v.module = u.module := congrArg UseStmt.module hveq
    rw [hmod, hex] at hvkeep
    simp at hvkeep
  · rw [hcol]
    unfold urlstrings
    exact (docsurl_infix_urlstring u).trans
      (infix_of_mem_joinBr (List.mem_map_of_mem urlstring hu))

/-- Witness for C9 at a concrete row whose single reference lives in
`bits::complete`. -/
theorem claim_c9_excluded_modules_witness :
    ((lit "tag", mkUse ⟨lit "bits::complete", lit "tag", lit "u"⟩) ∉
      rowRecordings [] ⟨[⟨lit "bits::complete", lit "tag", lit "u"⟩], [], none, none, lit "d"⟩) ∧
    mkUse ⟨lit "bits::complete", lit "tag", lit "u"⟩ ∉
      rowUses [] ⟨[⟨lit "bits::complete", lit "tag", lit "u"⟩], [], none, none, lit "d"⟩ ∧
    (∀ us, rowBlockUses (RowLine.staticRow
        (urlstrings [⟨lit "bits::complete", lit "tag", lit "u"⟩]) (lit "d")) = some us →
      us = [] ++ rowUses [] ⟨[⟨lit "bits::complete", lit "tag", lit "u"⟩], [], none, none, lit "d"⟩) ∧
    (lit "u") <:+: rowUrlcol (RowLine.staticRow
      (urlstrings [⟨lit "bits::complete", lit "tag", lit "u"⟩]) (lit "d")) := by
  have h := claim_c9_excluded_modules []
    ⟨[⟨lit "bits::complete", lit "tag", lit "u"⟩], [], none, none, lit "d"⟩
    ⟨lit "bits::complete", lit "tag", lit "u"⟩
    (RowLine.staticRow (urlstrings [⟨lit "bits::complete", lit "tag", lit "u"⟩]) (lit "d"))
    (rowRecordings [] ⟨[⟨lit "bits::complete", lit "tag", lit "u"⟩], [], none, none, lit "d"⟩)
    [⟨lit "bits::complete", lit "tag", lit "u"⟩]
    (by simp) (by decide) rfl
  exact h

/-! ### C5: the import ledger -/

theorem memStr_iff (x : Str) : ∀ l : List Str, memStr x l = true ↔ x ∈ l := by
  intro l
  induction l with
  | nil => simp [memStr]
  | cons y rest ih =>
    simp only [memStr, Bool.or_eq_true, decide_eq_true_eq, List.mem_cons, ih]

theorem alLookup_insert (k : Str) (v : UseStmt) (n : Str) :
    ∀ m, alLookup n (alInsert k v m) =
      if k = n then some v else alLookup n m := by
  intro m
  induction m with
  | nil => by_cases hk : k = n <;> simp [alInsert, alLookup, hk]
  | cons p rest ih =>
    obtain ⟨k2, v2⟩ := p
    by_cases hk : k2 = k
    · subst hk
      have he : alInsert k2 v ((k2, v2) :: rest) = (k2, v) :: rest := by
        simp [alInsert]
      rw [he]
      by_cases hn : k2 = n <;> simp [alLookup, hn]
    · have he : alInsert k v ((k2, v2) :: rest) = (k2, v2) :: alInsert k v rest := by
        simp [alInsert, hk]
      rw [he]
      by_cases hn : k2 = n
      · subst hn
        have hkn : ¬k = k2 := fun hh => hk hh.symm
        simp [alLookup, hkn]
      · simp [alLookup, hn, ih]

theorem alInsert_keys_mem (k : Str) (v : UseStmt) (x : Str) :
    ∀ m, x ∈ (alInsert k v m).map Prod.fst ↔ x = k ∨ x ∈ m.map Prod.fst := by
  intro m
  induction m with
  | nil => simp [alInsert]
  | cons p rest ih =>
    obtain ⟨k2, v2⟩ := p
    by_cases hk : k2 = k
    · subst hk
      have he : alInsert k2 v ((k2, v2) :: rest) = (k2, v) :: rest := by
        simp [alInsert]
      rw [he]
      simp only [List.map_cons, List.mem_cons]
      tauto
    · have he : alInsert k v ((k2, v2) :: rest) = (k2, v2) :: alInsert k v rest := by
        simp [alInsert, hk]
      rw [he]
      simp only [List.map_cons, List.mem_cons, ih]
      tauto

theorem alInsert_keys_nodup {k : Str} {v : UseStmt} {m : List (Str × UseStmt)}
    (h : (m.map Prod.fst).Nodup) : ((alInsert k v m).map Prod.fst).Nodup := by
  induction m with
  | nil => simp [alInsert]
  | cons p rest ih =>
    obtain ⟨k2, v2⟩ := p
    simp only [List.map_cons, List.nodup_cons] at h
    obtain ⟨hnin, hrest⟩ := h
    by_cases hk : k2 = k
    · subst hk
      have he : alInsert k2 v ((k2, v2) :: rest) = (k2, v) :: rest := by
        simp [alInsert]
      rw [he]
      simp only [List.map_cons, List.nodup_cons]
      exact ⟨hnin, hrest⟩
    · have he : alInsert k v ((k2, v2) :: rest) = (k2, v2) :: alInsert k v rest := by
        simp [alInsert, hk]
      rw [he]
      simp only [List.map_cons, List.nodup_cons]
      refine ⟨?_, ih hrest⟩
      rw [alInsert_keys_mem]
      rintro (h | h)
      · exact hk h
      · exact hnin h

theorem getLast?_mem' {α : Type} {v : α} : ∀ {l : List α}, l.getLast? = some v → v ∈ l := by
  intro l
  induction l with
  | nil => intro h; simp at h
  | cons a rest ih =>
    intro h
    match rest, ih with
    | [], _ =>
      simp only [List.getLast?_singleton, Option.some.injEq] at h
      simp [h]
    | b :: rest2, ih =>
      rw [List.getLast?_cons_cons] at h
      exact List.mem_cons_of_mem a (ih h)

theorem lastRecorded_append_one (h : List (Str × UseStmt)) (r : Str × UseStmt) (n : Str) :
    lastRecorded (h ++ [r]) n =
      if r.1 = n then some r.2 else lastRecorded h n := by
  unfold lastRecorded
  rw [List.filterMap_append]
  by_cases hr : r.1 = n
  · have : List.filterMap (fun p => if p.1 = n then some p.2 else none) [r] = [r.2] := by
      simp [hr]
    rw [this, if_pos hr, List.getLast?_concat]
  · have : List.filterMap (fun p => if p.1 = n then some p.2 else none) [r] = [] := by
      simp [hr]
    rw [this, List.append_nil, if_neg hr]

theorem lastRecorded_mem {h : List (Str × UseStmt)} {n : Str} {v : UseStmt}
    (hl : lastRecorded h n = some v) : (n, v) ∈ h := by
  unfold lastRecorded at hl
  have hmem := getLast?_mem' hl
  obtain ⟨p, hp, hpe⟩ := List.mem_filterMap.mp hmem
  by_cases hp1 : p.1 = n
  · simp only [if_pos hp1, Option.some.injEq] at hpe
    have : p = (n, v) := by
      obtain ⟨a, b⟩ := p
      simp only at hp1 hpe
      rw [hp1, hpe]
    rwa [this] at hp
  · simp [hp1] at hpe

theorem lastRecorded_eq_none {h : List (Str × UseStmt)} {n : Str}
    (hl : lastRecorded h n = none) : ∀ s, (n, s) ∉ h := by
  intro s hmem
  unfold lastRecorded at hl
  rw [List.getLast?_eq_none_iff] at hl
  have : s ∈ List.filterMap (fun p => if p.1 = n then some p.2 else none) h :=
    List.mem_filterMap.mpr ⟨(n, s), hmem, by simp⟩
  rw [hl] at this
  simp at this

theorem Conflicted_append_one (h : List (Str × UseStmt)) (r : Str × UseStmt) (n : Str) :
    Conflicted (h ++ [r]) n ↔
      Conflicted h n ∨ (r.1 = n ∧ ∃ s, (n, s) ∈ h ∧ s ≠ r.2) := by
  constructor
  · rintro ⟨s, t, hs, ht, hne⟩
    rcases List.mem_append.mp hs with hs | hs <;>
      rcases List.mem_append.mp ht with ht | ht
    · exact Or.inl ⟨s, t, hs, ht, hne⟩
    · have htr : (n, t) = r := List.mem_singleton.mp ht
      have ht2 : t = r.2 := congrArg Prod.snd htr
      refine Or.inr ⟨(congrArg Prod.fst htr).symm, s, hs, ?_⟩
      intro hser
      exact hne (hser.trans ht2.symm)
    · have hsr : (n, s) = r := List.mem_singleton.mp hs
      have hs2 : s = r.2 := congrArg Prod.snd hsr
      refine Or.inr ⟨(congrArg Prod.fst hsr).symm, t, ht, ?_⟩
      intro hter
      exact hne (hs2.trans hter.symm)
    · have h1 : s = r.2 := congrArg Prod.snd (List.mem_singleton.mp hs)
      have h2 : t = r.2 := congrArg Prod.snd (List.mem_singleton.mp ht)
      exact absurd (h1.trans h2.symm) hne
  · rintro (⟨s, t, hs, ht, hne⟩ | ⟨hr1, s, hs, hne⟩)
    · exact ⟨s, t, List.mem_append_left _ hs, List.mem_append_left _ ht, hne⟩
    · refine ⟨s, r.2, List.mem_append_left _ hs, ?_, hne⟩
      apply List.mem_append_right
      have hr : (n, r.2) = r := by rw [← hr1]
      rw [hr]
      simp

theorem ledgerInv_init : LedgerInv [] ⟨[], []⟩ := by
  refine ⟨by simp, fun n => rfl, fun n => ?_⟩
  simp only [memStr]
  constructor
  · intro h; exact absurd h (by simp)
  · rintro ⟨s, t, hs, _, _⟩
    exact absurd hs (by simp)

theorem ledgerInv_step {h : List (Str × UseStmt)} {st : Ledger} (r : Str × UseStmt)
    (hinv : LedgerInv h st) : LedgerInv (h ++ [r]) (record st r) := by
  obtain ⟨hnd, hlk, hcf⟩ := hinv
  unfold record
  cases hold : alLookup r.1 st.uses with
  | none =>
    dsimp only
    refine ⟨alInsert_keys_nodup hnd, ?_, ?_⟩
    · intro n
      rw [alLookup_insert, lastRecorded_append_one]
      by_cases hn : r.1 = n
      · simp [hn]
      · simp only [if_neg hn, hlk n]
    · intro n
      rw [Conflicted_append_one, hcf n]
      constructor
      · exact Or.inl
      · rintro (hc | ⟨hr1, s, hsh, _⟩)
        · exact hc
        · exfalso
          have hnone : lastRecorded h r.1 = none := (hlk r.1).symm.trans hold
          have : (r.1, s) ∈ h := by rw [hr1]; exact hsh
          exact lastRecorded_eq_none hnone s this
  | some o =>
    dsimp only
    by_cases hoe : o = r.2
    · rw [if_neg (not_not_intro hoe)]
      refine ⟨alInsert_keys_nodup hnd, ?_, ?_⟩
      · intro n
        rw [alLookup_insert, lastRecorded_append_one]
        by_cases hn : r.1 = n
        · simp [hn]
        · simp only [if_neg hn, hlk n]
      · intro n
        rw [Conflicted_append_one, hcf n]
        constructor
        · exact Or.inl
        · rintro (hc | ⟨hr1, s, hsh, hsne⟩)
          · exact hc
          · have hsome : lastRecorded h r.1 = some o := (hlk r.1).symm.trans hold
            have hmem : (r.1, o) ∈ h := lastRecorded_mem hsome
            refine ⟨s, r.2, hsh, ?_, hsne⟩
            rw [← hr1, ← hoe]
            exact hmem
    · rw [if_pos hoe]
      refine ⟨alInsert_keys_nodup hnd, ?_, ?_⟩
      · intro n
        rw [alLookup_insert, lastRecorded_append_one]
        by_cases hn : r.1 = n
        · simp [hn]
        · simp only [if_neg hn, hlk n]
      · intro n
        rw [Conflicted_append_one]
        simp only [memStr, Bool.or_eq_true, decide_eq_true_eq, hcf n]
        constructor
        · rintro (hn1 | hc)
          · have hsome : lastRecorded h r.1 = some o := (hlk r.1).symm.trans hold
            have hmem : (r.1, o) ∈ h := lastRecorded_mem hsome
            refine Or.inr ⟨hn1.symm, o, ?_, hoe⟩
            rw [hn1]
            exact hmem
          · exact Or.inl hc
        · rintro (hc | ⟨hr1, _, _, _⟩)
          · exact Or.inr hc
          · exact Or.inl hr1.symm

theorem ledger_foldl_inv (recs : List (Str × UseStmt)) :
    LedgerInv recs (recs.foldl record ⟨[], []⟩) := by
  induction recs using List.reverseRecOn with
  | nil => exact ledgerInv_init
  | append_singleton l r ih =>
    rw [List.foldl_append]
    simp only [List.foldl_cons, List.foldl_nil]
    exact ledgerInv_step r ih

theorem filter_key_eq {n : Str} {v : UseStmt} :
    ∀ {m : List (Str × UseStmt)}, (m.map Prod.fst).Nodup →
      alLookup n m = some v → m.filter (fun p => p.1 = n) = [(n, v)] := by
  intro m
  induction m with
  | nil => intro _ hlk; simp [alLookup] at hlk
  | cons p rest ih =>
    intro hnd hlk
    obtain ⟨k2, v2⟩ := p
    simp only [List.map_cons, List.nodup_cons] at hnd
    obtain ⟨hk2nin, hndrest⟩ := hnd
    by_cases hk : k2 = n
    · subst hk
      have he : alLookup k2 ((k2, v2) :: rest) = some v2 := by simp [alLookup]
      rw [he] at hlk
      have hv := Option.some.inj hlk
      subst hv
      rw [List.filter_cons_of_pos (by simp)]
      have hrest : rest.filter (fun p => (p.1 = k2 : Bool)) = [] := by
        rw [List.filter_eq_nil_iff]
        intro a ha hp
        simp only [decide_eq_true_eq] at hp
        exact hk2nin (List.mem_map.mpr ⟨a, ha, hp⟩)
      rw [hrest]
    · have he : alLookup n ((k2, v2) :: rest) = alLookup n rest := by
        simp [alLookup, hk]
      rw [he] at hlk
      rw [List.filter_cons_of_neg (by simp [hk])]
      exact ih hndrest hlk

/-- C5: fold the whole recording sequence into the ledger.  The remaining map
(conflicted symbols removed) contains no entry for any symbol with two
different recorded items, exactly one entry — the last recorded item — for
every other recorded symbol; the finalized list is that map's items sorted by
statement text (a permutation of them, sorted); and every row's own generated
block keeps exactly its local import items followed by its generated use
items, untouched by global conflict resolution. -/
theorem claim_c5_import_ledger (recs : List (Str × UseStmt)) :
    (∀ n, Conflicted recs n →
      ∀ v, (n, v) ∉ (recs.foldl record ⟨[], []⟩).uses.filter
        (fun p => !memStr p.1 (recs.foldl record ⟨[], []⟩).conflicts)) ∧
    (∀ n v, ¬Conflicted recs n → lastRecorded recs n = some v →
      ((recs.foldl record ⟨[], []⟩).uses.filter
        (fun p => !memStr p.1 (recs.foldl record ⟨[], []⟩).conflicts)).filter
          (fun p => p.1 = n) = [(n, v)]) ∧
    List.Sorted (fun a b => useText a ≤ useText b)
      (finalize (recs.foldl record ⟨[], []⟩)) ∧
    (finalize (recs.foldl record ⟨[], []⟩)).Perm
      (((recs.foldl record ⟨[], []⟩).uses.filter
        (fun p => !memStr p.1 (recs.foldl record ⟨[], []⟩).conflicts)).map
          (fun p => p.2)) ∧
    (∀ lastUrls c line recs2 next us,
      processRow lastUrls c = .ok (line, recs2, next) →
      rowBlockUses line = some us →
      us = c.localImports ++ rowUses lastUrls c) := by
  obtain ⟨hnd, hlk, hcf⟩ := ledger_foldl_inv recs
  refine ⟨?_, ?_, ?_, ?_, ?_⟩
  · intro n hc v hmem
    obtain ⟨hin, hkeep⟩ := List.mem_filter.mp hmem
    have htrue : memStr n (recs.foldl record ⟨[], []⟩).conflicts = true := (hcf n).mpr hc
    have hkeep2 : (!memStr n (recs.foldl record ⟨[], []⟩).conflicts) = true := hkeep
    rw [htrue] at hkeep2
    simp at hkeep2
  · intro n v hnc hlast
    have hlook : alLookup n (recs.foldl record ⟨[], []⟩).uses = some v :=
      (hlk n).trans hlast
    have hkey := filter_key_eq hnd hlook
    have hmemf : memStr n (recs.foldl record ⟨[], []⟩).conflicts = false := by
      rcases Bool.eq_false_or_eq_true
        (memStr n (recs.foldl record ⟨[], []⟩).conflicts) with hh | hh
      · exact absurd ((hcf n).mp hh) hnc
      · exact hh
    have hswap : ((recs.foldl record ⟨[], []⟩).uses.filter
        (fun p => !memStr p.1 (recs.foldl record ⟨[], []⟩).conflicts)).filter
          (fun p => p.1 = n) =
        ((recs.foldl record ⟨[], []⟩).uses.filter
          (fun p => (p.1 = n : Bool))).filter
            (fun p => !memStr p.1 (recs.foldl record ⟨[], []⟩).conflicts) := by
      rw [List.filter_filter, List.filter_filter]
      apply List.filter_congr
      intro p _
      exact Bool.and_comm _ _
    rw [hswap, hkey, List.filter_cons_of_pos (by simp [hmemf])]
    rfl
  · exact List.sorted_insertionSort _ _
  · exact List.perm_insertionSort _ _
  · intro lastUrls c line recs2 next us hp hbu
    exact (processRow_ok_parts hp).2.2.2 us hbu

/-- Witness for C5 at the conflicting recording sequence of the source
comment: `character::complete::i8` then `number::complete::i8` both propose
symbol `i8`; the remaining map has no entry for `i8`. -/
theorem claim_c5_import_ledger_witness :
    (lit "i8", (⟨lit "character::complete", lit "i8"⟩ : UseStmt)) ∉
      (([(lit "i8", (⟨lit "character::complete", lit "i8"⟩ : UseStmt)),
         (lit "i8", (⟨lit "number::complete", lit "i8"⟩ : UseStmt))].foldl
        record ⟨[], []⟩).uses.filter
          (fun p => !memStr p.1
            (([(lit "i8", (⟨lit "character::complete", lit "i8"⟩ : UseStmt)),
              (lit "i8", (⟨lit "number::complete", lit "i8"⟩ : UseStmt))].foldl
                record ⟨[], []⟩).conflicts))) :=
  (claim_c5_import_ledger
      [(lit "i8", ⟨lit "character::complete", lit "i8"⟩),
       (lit "i8", ⟨lit "number::complete", lit "i8"⟩)]).1
    (lit "i8")
    ⟨⟨lit "character::complete", lit "i8"⟩, ⟨lit "number::complete", lit "i8"⟩,
      by simp, by simp, by decide⟩
    ⟨lit "character::complete", lit "i8"⟩

/-! ### C2: the segmenting pass -/

theorem not_line_ending_eq_some {s t r : Str}
    (h : not_line_ending s = some (t, r)) : s = t ++ r := by
  unfold not_line_ending at h
  dsimp only at h
  have hida : s.takeWhile notCRLF ++ s.dropWhile notCRLF = s :=
    List.takeWhile_append_dropWhile notCRLF s
  cases hd : s.dropWhile notCRLF with
  | nil =>
    rw [hd] at h hida
    dsimp only at h
    simp only [Option.some.injEq, Prod.mk.injEq] at h
    obtain ⟨h1, h2⟩ := h
    rw [← h1, ← h2]
    rw [List.append_nil] at hida ⊢
    exact hida.symm
  | cons c rest =>
    rw [hd] at h hida
    dsimp only at h
    by_cases hc : c = crc
    · rw [if_pos hc] at h
      cases rest with
      | nil => exact absurd h (by simp)
      | cons c2 rest2 =>
        dsimp only at h
        by_cases hc2 : c2 = nlc
        · rw [if_pos hc2] at h
          simp only [Option.some.injEq, Prod.mk.injEq] at h
          obtain ⟨h1, h2⟩ := h
          rw [← h1, ← h2]
          exact hida.symm
        · rw [if_neg hc2] at h
          exact absurd h (by simp)
    · rw [if_neg hc] at h
      simp only [Option.some.injEq, Prod.mk.injEq] at h
      obtain ⟨h1, h2⟩ := h
      rw [← h1, ← h2]
      exact hida.symm

theorem parse_code_block_eq_some {s : Str} {c : Component} {rest : Str}
    (h : parse_code_block s = some (c, rest)) :
    ∃ lang le code, c = .codeBlock ⟨lang, code⟩ ∧
      (le = [nlc] ∨ le = [crc, nlc]) ∧
      s = fence ++ lang ++ le ++ code ++ fence ++ rest ∧
      rest.length < s.length := by
  unfold parse_code_block at h
  cases h1 : tag fence s with
  | none => rw [h1] at h; exact absurd h (by simp)
  | some s1 =>
    rw [h1] at h
    dsimp only at h
    cases h2 : not_line_ending s1 with
    | none => rw [h2] at h; exact absurd h (by simp)
    | some tr =>
      obtain ⟨language, s2⟩ := tr
      rw [h2] at h
      dsimp only at h
      cases h3 : line_ending s2 with
      | none => rw [h3] at h; exact absurd h (by simp)
      | some ler =>
        obtain ⟨le, s3⟩ := ler
        rw [h3] at h
        dsimp only at h
        cases h4 : splitUntil fence s3 with
        | none => rw [h4] at h; exact absurd h (by simp)
        | some cs4 =>
          obtain ⟨code, s4⟩ := cs4
          rw [h4] at h
          dsimp only at h
          cases h5 : tag fence s4 with
          | none => rw [h5] at h; exact absurd h (by simp)
          | some s5 =>
            rw [h5] at h
            dsimp only at h
            simp only [Option.some.injEq, Prod.mk.injEq] at h
            obtain ⟨hc, hrest⟩ := h
            have e1 := tag_eq_some h1
            have e2 := not_line_ending_eq_some h2
            obtain ⟨e3, hle⟩ := line_ending_eq_some h3
            obtain ⟨e4, _⟩ := splitUntil_eq_some h4
            have e5 := tag_eq_some h5
            refine ⟨language, le, code, hc.symm, hle, ?_, ?_⟩
            · subst hrest
              rw [e1, e2, e3, e4, e5]
              simp [List.append_assoc]
            · subst hrest
              rw [e1, e2, e3, e4, e5]
              simp only [List.length_append]
              have h6 : 1 ≤ le.length := by
                rcases hle with hh | hh <;> simp [hh]
              have h7 : fence.length = 3 := by simp [fence]
              omega

theorem parse_outside_eq_some {s : Str} {c : Component} {rest : Str}
    (h : parse_outside_code_blocks s = some (c, rest)) :
    ∃ t, c = .text t ∧ t ≠ [] ∧ s = t ++ rest ∧ rest.length < s.length := by
  unfold parse_outside_code_blocks at h
  cases hsp : splitUntil fence s with
  | some tr =>
    obtain ⟨t, r⟩ := tr
    rw [hsp] at h
    dsimp only at h
    by_cases ht : t = []
    · rw [if_pos ht] at h; exact absurd h (by simp)
    · rw [if_neg ht] at h
      simp only [Option.some.injEq, Prod.mk.injEq] at h
      obtain ⟨hc, hrest⟩ := h
      obtain ⟨hs, _⟩ := splitUntil_eq_some hsp
      subst hrest
      refine ⟨t, hc.symm, ht, hs, ?_⟩
      rw [hs]
      simp only [List.length_append]
      have : 1 ≤ t.length := by
        cases t with
        | nil => exact absurd rfl ht
        | cons a l => simp
      omega
  | none =>
    rw [hsp] at h
    dsimp only at h
    by_cases hs : s = []
    · rw [if_pos hs] at h; exact absurd h (by simp)
    · rw [if_neg hs] at h
      simp only [Option.some.injEq, Prod.mk.injEq] at h
      obtain ⟨hc, hrest⟩ := h
      subst hrest
      refine ⟨s, hc.symm, hs, by simp, ?_⟩
      cases s with
      | nil => exact absurd rfl hs
      | cons a l => simp

theorem do_components_fuel_succ_code {fuel : ℕ} {s : Str} {c : Component} {rest : Str}
    (hpc : parse_code_block s = some (c, rest)) :
    do_components_fuel (fuel + 1) s =
      (c :: (do_components_fuel fuel rest).1, (do_components_fuel fuel rest).2) := by
  simp only [do_components_fuel, hpc]

theorem do_components_fuel_succ_outside {fuel : ℕ} {s : Str} {c : Component} {rest : Str}
    (hpc : parse_code_block s = none)
    (hpo : parse_outside_code_blocks s = some (c, rest)) :
    do_components_fuel (fuel + 1) s =
      (c :: (do_components_fuel fuel rest).1, (do_components_fuel fuel rest).2) := by
  simp only [do_components_fuel, hpc, hpo]

theorem do_components_fuel_succ_none {fuel : ℕ} {s : Str}
    (hpc : parse_code_block s = none)
    (hpo : parse_outside_code_blocks s = none) :
    do_components_fuel (fuel + 1) s = ([], s) := by
  simp only [do_components_fuel, hpc, hpo]

theorem do_components_fuel_spec :
    ∀ fuel s, s.length < fuel →
      ∃ raws : List Str,
        List.Forall₂ RawOf (do_components_fuel fuel s).1 raws ∧
        raws.flatten ++ (do_components_fuel fuel s).2 = s := by
  intro fuel
  induction fuel with
  | zero => intro s h; omega
  | succ fuel ih =>
    intro s hlen
    cases hpc : parse_code_block s with
    | some cr =>
      obtain ⟨c, rest⟩ := cr
      obtain ⟨lang, le, code, hc, hle, hs, hlt⟩ := parse_code_block_eq_some hpc
      obtain ⟨raws, hfa, hcov⟩ := ih rest (by omega)
      rw [do_components_fuel_succ_code hpc]
      refine ⟨(fence ++ lang ++ le ++ code ++ fence) :: raws, ?_, ?_⟩
      · refine List.Forall₂.cons ?_ hfa
        rw [hc]
        exact ⟨le, hle, rfl⟩
      · simp only [List.flatten_cons]
        rw [List.append_assoc, hcov, hs]
    | none =>
      cases hpo : parse_outside_code_blocks s with
      | some cr =>
        obtain ⟨c, rest⟩ := cr
        obtain ⟨t, hc, htne, hs, hlt⟩ := parse_outside_eq_some hpo
        obtain ⟨raws, hfa, hcov⟩ := ih rest (by omega)
        rw [do_components_fuel_succ_outside hpc hpo]
        refine ⟨t :: raws, ?_, ?_⟩
        · refine List.Forall₂.cons ?_ hfa
          rw [hc]
          rfl
        · simp only [List.flatten_cons]
          rw [List.append_assoc, hcov, hs]
      | none =>
        rw [do_components_fuel_succ_none hpc hpo]
        exact ⟨[], List.Forall₂.nil, by simp⟩

theorem rawOf_emitFidelity {c : Component} {raw : Str} (h : RawOf c raw) :
    EmitFidelity c raw := by
  cases c with
  | text t =>
    simp only [RawOf] at h
    simp only [EmitFidelity, rewrite_ignore, emit_component]
    exact h.symm
  | codeBlock cb =>
    simp only [RawOf] at h
    obtain ⟨le, hle, hraw⟩ := h
    refine ⟨le, hle, hraw, ?_⟩
    by_cases hig : cb.language = lit "ignore"
    · simp [rewrite_ignore, emit_component, hig]
    · simp [rewrite_ignore, emit_component, hig]

/-- C2 counterexample: re-emission is not byte-for-byte.  The input holds one
code block whose closing fence directly follows the code; `do_code_blocks`
re-emits it with an extra newline inserted before the closing fence, so the
output differs from the input. -/
theorem claim_c2_segmentation_counterexample :
    do_code_blocks (lit "```rust\na\n```") = .ok (lit "```rust\na\n\n```") ∧
    lit "```rust\na\n\n```" ≠ lit "```rust\na\n```" := by
  constructor
  · rfl
  · simp [lit]

/-- C2 (amended): for every template that the segmenting pass fully consumes
into at least one component, the components cover the entire input with no
gaps or overlaps — their raw source spans concatenate back to the input — and
re-emission reproduces every text component verbatim, while each code block
is re-emitted as fence, its tag (`ignore` rewritten to `rust`), an LF, its
code, and one extra LF before the closing fence: so output equals input
except for that inserted LF per code block (and a CRLF after a tag becoming
LF), not byte-for-byte. -/
theorem claim_c2_segmentation_amended (s : Str) (cs : List Component)
    (hcs : (do_components s).1 = cs) (hrem : (do_components s).2 = [])
    (hne : cs ≠ []) :
    ∃ raws : List Str,
      List.Forall₂ RawOf cs raws ∧
      raws.flatten = s ∧
      List.Forall₂ EmitFidelity cs raws ∧
      do_code_blocks s = .ok ((cs.map
        (fun c => emit_component (rewrite_ignore c))).flatten) := by
  obtain ⟨raws, hfa, hcov⟩ := do_components_fuel_spec (s.length + 1) s (by omega)
  have hfa2 : List.Forall₂ RawOf cs raws := by
    rw [← hcs]
    exact hfa
  have hcov2 : raws.flatten = s := by
    have hh : raws.flatten ++ (do_components s).2 = s := hcov
    rw [hrem, List.append_nil] at hh
    exact hh
  refine ⟨raws, hfa2, hcov2,
    List.Forall₂.imp (fun c raw h => rawOf_emitFidelity h) hfa2, ?_⟩
  unfold do_code_blocks
  dsimp only
  rw [hcs, hrem]
  rw [if_neg hne, if_neg (by simp)]
  rw [List.map_map]
  rfl

/-- Witness for the amended C2 at the counterexample's concrete input. -/
theorem claim_c2_segmentation_amended_witness :
    ∃ raws : List Str,
      List.Forall₂ RawOf [Component.codeBlock ⟨lit "rust", lit "a\n"⟩] raws ∧
      raws.flatten = lit "```rust\na\n```" ∧
      List.Forall₂ EmitFidelity [Component.codeBlock ⟨lit "rust", lit "a\n"⟩] raws ∧
      do_code_blocks (lit "```rust\na\n```") =
        .ok (([Component.codeBlock ⟨lit "rust", lit "a\n"⟩].map
          (fun c => emit_component (rewrite_ignore c))).flatten) :=
  claim_c2_segmentation_amended (lit "```rust\na\n```")
    [Component.codeBlock ⟨lit "rust", lit "a\n"⟩] rfl rfl (by simp)

end NomCheatsheet
